import Mathlib

/-!
Verification development for a historical-market trading simulator.

The simulator replays historical OHLC market data: a price-resolution layer
maps a simulated (date, time-of-day) pair to a traded price, a decimal-exact
ledger tracks cash and holdings across buys and sells, a clock advances the
simulation by days, months, years or absolute dates, and a history aggregator
downsamples the portfolio-value snapshot sequence for charting.

This file gives a shallow embedding of those components (dates and calendar
arithmetic, price probing, the ledger operations, the clock, the aggregator)
and proves the specified properties about them.  Decimal quantities are
modelled as rationals; the `quantize(step, ROUND_DOWN)` operations of the
source are modelled by truncation toward zero at the given step.
-/

set_option maxRecDepth 8000

namespace TimeTravel

/-! ## Calendar dates (proleptic Gregorian, as Python `datetime`) -/

structure Date where
  year : ℕ
  month : ℕ
  day : ℕ
deriving DecidableEq

def isLeap (y : ℕ) : Bool := y % 4 == 0 && (y % 100 != 0 || y % 400 == 0)

/-- `calendar.monthrange(y, m)[1]`: number of days in a month. -/
def daysInMonth (y m : ℕ) : ℕ :=
  if m = 2 then (if isLeap y then 29 else 28)
  else if m = 4 ∨ m = 6 ∨ m = 9 ∨ m = 11 then 30
  else 31

def daysBeforeMonth (y m : ℕ) : ℕ :=
  (List.range (m - 1)).foldl (fun a i => a + daysInMonth y (i + 1)) 0

/-- Rata-die ordinal of a date (day 1 = 0001-01-01), as for Python `datetime.toordinal`. -/
def toOrdinal (d : Date) : ℤ :=
  365 * ((d.year : ℤ) - 1) + (((d.year - 1) / 4 : ℕ) : ℤ) - (((d.year - 1) / 100 : ℕ) : ℤ)
    + (((d.year - 1) / 400 : ℕ) : ℤ) + (daysBeforeMonth d.year d.month : ℤ) + (d.day : ℤ)

/-- Python `datetime.weekday()`: Monday = 0, ..., Sunday = 6. -/
def weekday (d : Date) : ℤ := (toOrdinal d + 6) % 7

def isWeekend (d : Date) : Bool := decide (5 ≤ weekday d)

/-- `date + timedelta(days=1)` on a valid date. -/
def nextDay (dt : Date) : Date :=
  if dt.day < daysInMonth dt.year dt.month then ⟨dt.year, dt.month, dt.day + 1⟩
  else if dt.month < 12 then ⟨dt.year, dt.month + 1, 1⟩
  else ⟨dt.year + 1, 1, 1⟩

/-- `date - timedelta(days=1)` on a valid date. -/
def prevDay (dt : Date) : Date :=
  if 1 < dt.day then ⟨dt.year, dt.month, dt.day - 1⟩
  else if 1 < dt.month then ⟨dt.year, dt.month - 1, daysInMonth dt.year (dt.month - 1)⟩
  else ⟨dt.year - 1, 12, 31⟩

/-- `_add_months`: advance by a month delta, clamping the day to month end. -/
def addMonths (dt : Date) (n : ℕ) : Date :=
  let mi := dt.month - 1 + n
  let y := dt.year + mi / 12
  let m := mi % 12 + 1
  ⟨y, m, min dt.day (daysInMonth y m)⟩

/-! ## Decimal quantization (`Decimal.quantize(step, ROUND_DOWN)`) -/

/-- Truncation toward zero at step `1/s` (`ROUND_DOWN` quantization). -/
def truncTo (s : ℕ) (x : ℚ) : ℚ :=
  (if 0 ≤ x then (⌊x * s⌋ : ℤ) else (-⌊-(x * s)⌋ : ℤ) : ℤ) / (s : ℚ)

/-- `_quantize_shares`: truncate to 4 fractional digits (`SHARE_STEP = 0.0001`). -/
def qShares (x : ℚ) : ℚ := truncTo 10000 x

/-- `_quantize_cash`: truncate to 2 fractional digits (`CASH_STEP = 0.01`). -/
def qCash (x : ℚ) : ℚ := truncTo 100 x

/-- `x` is an integer multiple of `1/s`. -/
def IsMulOf (s : ℕ) (x : ℚ) : Prop := ∃ k : ℤ, x = (k : ℚ) / (s : ℚ)

theorem truncTo_isMulOf (s : ℕ) (x : ℚ) : IsMulOf s (truncTo s x) := by
  unfold truncTo
  split
  · exact ⟨⌊x * s⌋, rfl⟩
  · exact ⟨-⌊-(x * s)⌋, rfl⟩

theorem truncTo_eq_of_isMulOf {s : ℕ} (hs : s ≠ 0) {x : ℚ} (h : IsMulOf s x) :
    truncTo s x = x := by
  obtain ⟨k, rfl⟩ := h
  have hs0 : (s : ℚ) ≠ 0 := by exact_mod_cast hs
  unfold truncTo
  have hmul : (k : ℚ) / (s : ℚ) * (s : ℚ) = (k : ℚ) := div_mul_cancel₀ _ hs0
  split
  · rw [hmul, Int.floor_intCast]
  · rw [show -((k : ℚ) / (s : ℚ) * (s : ℚ)) = ((-k : ℤ) : ℚ) by rw [hmul]; push_cast; ring,
      Int.floor_intCast, neg_neg]

theorem isMulOf_add {s : ℕ} {x y : ℚ} (hx : IsMulOf s x) (hy : IsMulOf s y) :
    IsMulOf s (x + y) := by
  obtain ⟨k, rfl⟩ := hx
  obtain ⟨l, rfl⟩ := hy
  exact ⟨k + l, by push_cast; ring⟩

theorem isMulOf_sub {s : ℕ} {x y : ℚ} (hx : IsMulOf s x) (hy : IsMulOf s y) :
    IsMulOf s (x - y) := by
  obtain ⟨k, rfl⟩ := hx
  obtain ⟨l, rfl⟩ := hy
  exact ⟨k - l, by push_cast; ring⟩

theorem qCash_isMulOf (x : ℚ) : IsMulOf 100 (qCash x) := truncTo_isMulOf 100 x

theorem qShares_isMulOf (x : ℚ) : IsMulOf 10000 (qShares x) := truncTo_isMulOf 10000 x

theorem qCash_eq_of_isMulOf {x : ℚ} (h : IsMulOf 100 x) : qCash x = x :=
  truncTo_eq_of_isMulOf (by norm_num) h

theorem qShares_eq_of_isMulOf {x : ℚ} (h : IsMulOf 10000 x) : qShares x = x :=
  truncTo_eq_of_isMulOf (by norm_num) h

theorem qShares_idem (x : ℚ) : qShares (qShares x) = qShares x :=
  qShares_eq_of_isMulOf (qShares_isMulOf x)

theorem qShares_zero : qShares 0 = 0 :=
  qShares_eq_of_isMulOf ⟨0, by norm_num⟩

theorem qShares_self_sub_self (x : ℚ) : qShares (x - x) = 0 := by
  rw [sub_self, qShares_zero]

/-! ## Market data and price resolution (`StockMarket.get_price`, `get_price_change`) -/

inductive TimeOfDay | openTod | closeTod
deriving DecidableEq

structure PriceBar where
  openP : ℚ
  closeP : ℚ
deriving DecidableEq

/-- The cached per-symbol data: the OHLC history frame, the known IPO/first-trade
date (`get_ipo_date`), and the latest known market cap (`get_market_cap`). -/
structure SymbolData where
  hist : List (Date × PriceBar)
  ipoDate : Option Date
  marketCap : Option ℚ
deriving DecidableEq

/-- The market data environment: `none` for a symbol means its data is not
loadable (`load_stock_data` fails, so the symbol never enters the cache). -/
def Market : Type := String → Option SymbolData

/-- The `CRYPTOCURRENCIES` table keys. -/
def cryptoSymbols : List String := ["BTC-USD", "ETH-USD"]

def isCryptoSym (s : String) : Bool := cryptoSymbols.contains s

/-- Exact calendar-date lookup in the history frame. -/
def histLookup (hist : List (Date × PriceBar)) (d : Date) : Option PriceBar :=
  (hist.find? (fun e => decide (e.1 = d))).map (fun e => e.2)

/-- `hist.index.min()`: the earliest date in the cached frame. -/
def histMinDate (hist : List (Date × PriceBar)) : Date :=
  match hist with
  | [] => ⟨1, 1, 1⟩
  | e :: rest => rest.foldl (fun acc f => if toOrdinal f.1 < toOrdinal acc then f.1 else acc) e.1

def stepDate (fwd : Bool) (d : Date) : Date := if fwd then nextDay d else prevDay d

/-- The date probed at attempt `k` (offset `k` days in the search direction). -/
def probeDate (fwd : Bool) (d : Date) (k : ℕ) : Date := (stepDate fwd)^[k] d

/-- The trading-day search loop of `get_price`: check the current date, and on a
miss step one day (forward for crypto, backward for equities), for at most
`fuel` date checks (`max_attempts = 10`). -/
def probe (hist : List (Date × PriceBar)) (fwd : Bool) : ℕ → Date → Option PriceBar
  | 0, _ => none
  | Nat.succ n, d =>
    match histLookup hist d with
    | some bar => some bar
    | none => probe hist fwd n (stepDate fwd d)

/-- The instrument-existence gate of `get_price`: if an IPO date is known the
requested date must not precede it; otherwise the requested date must not be
more than 30 days before the earliest cached date. -/
def passesGate (data : SymbolData) (d : Date) : Bool :=
  match data.ipoDate with
  | some ipo => decide (toOrdinal ipo ≤ toOrdinal d)
  | none => decide (toOrdinal (histMinDate data.hist) - toOrdinal d ≤ 30)

def priceFromBar (tod : TimeOfDay) (bar : PriceBar) : ℚ :=
  match tod with
  | .openTod => bar.openP
  | .closeTod => bar.closeP

/-- `StockMarket.get_price`. -/
def getPrice (mkt : Market) (sym : String) (d : Date) (tod : TimeOfDay) : Option ℚ :=
  match mkt sym with
  | none => none
  | some data =>
    if passesGate data d then (probe data.hist (isCryptoSym sym) 10 d).map (priceFromBar tod)
    else none

/-- The backward scan of `get_price_change`: probe `d-1, d-2, ...` for at most
`fuel` attempts (10) for the most recent prior Close. -/
def backScan (hist : List (Date × PriceBar)) (c : ℚ) : ℕ → Date → Option ℚ × Option ℚ
  | 0, _ => (some 0, some 0)
  | Nat.succ n, p =>
    match histLookup hist p with
    | some bar =>
      if bar.closeP = 0 then (some 0, some 0)
      else (some (c - bar.closeP), some ((c - bar.closeP) / bar.closeP * 100))
    | none => backScan hist c n (prevDay p)

/-- `StockMarket.get_price_change`. -/
def getPriceChange (mkt : Market) (sym : String) (d : Date) (tod : TimeOfDay) :
    Option ℚ × Option ℚ :=
  match mkt sym with
  | none => (none, none)
  | some data =>
    match getPrice mkt sym d tod with
    | none => (none, none)
    | some c => if c = 0 then (none, none) else backScan data.hist c 10 (prevDay d)

/-! ### Probe characterization lemmas -/

theorem probe_eq_none (hist : List (Date × PriceBar)) (fwd : Bool) :
    ∀ (n : ℕ) (d : Date),
      (∀ k < n, histLookup hist (probeDate fwd d k) = none) → probe hist fwd n d = none := by
  intro n
  induction n with
  | zero => intro d _; rfl
  | succ m ih =>
    intro d h
    have h0 := h 0 (Nat.succ_pos m)
    simp only [probeDate, Function.iterate_zero_apply] at h0
    simp only [probe, h0]
    exact ih (stepDate fwd d) (fun k hk => by
      have := h (k + 1) (Nat.succ_lt_succ hk)
      simpa only [probeDate, Function.iterate_succ_apply] using this)

theorem probe_eq_some (hist : List (Date × PriceBar)) (fwd : Bool) :
    ∀ (n k : ℕ) (d : Date) (bar : PriceBar), k < n →
      histLookup hist (probeDate fwd d k) = some bar →
      (∀ j < k, histLookup hist (probeDate fwd d j) = none) →
      probe hist fwd n d = some bar := by
  intro n
  induction n with
  | zero => intro k d bar hk; exact absurd hk (Nat.not_lt_zero k)
  | succ m ih =>
    intro k d bar hk hfound hmin
    cases k with
    | zero =>
      simp only [probeDate, Function.iterate_zero_apply] at hfound
      simp only [probe, hfound]
    | succ j =>
      have h0 := hmin 0 (Nat.succ_pos j)
      simp only [probeDate, Function.iterate_zero_apply] at h0
      simp only [probe, h0]
      exact ih j (stepDate fwd d) bar (Nat.lt_of_succ_lt_succ hk)
        (by simpa only [probeDate, Function.iterate_succ_apply] using hfound)
        (fun i hi => by
          have := hmin (i + 1) (Nat.succ_lt_succ hi)
          simpa only [probeDate, Function.iterate_succ_apply] using this)

theorem backScan_eq_na (hist : List (Date × PriceBar)) (c : ℚ) :
    ∀ (n : ℕ) (p : Date),
      (∀ k < n, histLookup hist (prevDay^[k] p) = none) →
      backScan hist c n p = (some 0, some 0) := by
  intro n
  induction n with
  | zero => intro p _; rfl
  | succ m ih =>
    intro p h
    have h0 := h 0 (Nat.succ_pos m)
    simp only [Function.iterate_zero_apply] at h0
    simp only [backScan, h0]
    exact ih (prevDay p) (fun k hk => by
      have := h (k + 1) (Nat.succ_lt_succ hk)
      simpa only [Function.iterate_succ_apply] using this)

theorem backScan_eq_found (hist : List (Date × PriceBar)) (c : ℚ) :
    ∀ (n k : ℕ) (p : Date) (bar : PriceBar), k < n →
      histLookup hist (prevDay^[k] p) = some bar →
      (∀ j < k, histLookup hist (prevDay^[j] p) = none) →
      backScan hist c n p =
        (if bar.closeP = 0 then (some 0, some 0)
         else (some (c - bar.closeP), some ((c - bar.closeP) / bar.closeP * 100))) := by
  intro n
  induction n with
  | zero => intro k p bar hk; exact absurd hk (Nat.not_lt_zero k)
  | succ m ih =>
    intro k p bar hk hfound hmin
    cases k with
    | zero =>
      simp only [Function.iterate_zero_apply] at hfound
      simp only [backScan, hfound]
    | succ j =>
      have h0 := hmin 0 (Nat.succ_pos j)
      simp only [Function.iterate_zero_apply] at h0
      simp only [backScan, h0]
      exact ih j (prevDay p) bar (Nat.lt_of_succ_lt_succ hk)
        (by simpa only [Function.iterate_succ_apply] using hfound)
        (fun i hi => by
          have := hmin (i + 1) (Nat.succ_lt_succ hi)
          simpa only [Function.iterate_succ_apply] using this)

/-! ## Simulation state and ledger (`execute_buy`, `sell`, `_update_portfolio_value`) -/

structure Holding where
  shares : ℚ
  avg_cost : ℚ
deriving DecidableEq

structure Txn where
  date : Date
  time : TimeOfDay
  kind : String
  symbol : String
  shares : ℚ
  price : ℚ
  total : ℚ
  profit_loss : Option ℚ
deriving DecidableEq

structure Snapshot where
  date : Date
  time : TimeOfDay
  value : ℚ
deriving DecidableEq

structure SimState where
  current_date : Date
  time_of_day : TimeOfDay
  cash : ℚ
  holdings : List (String × Holding)
  transactions : List Txn
  portfolio_history : List Snapshot
deriving DecidableEq

/-- Holdings are a dict keyed by symbol; lookup finds the entry for a symbol. -/
def lookupHolding (hs : List (String × Holding)) (sym : String) : Option Holding :=
  (hs.find? (fun e => decide (e.1 = sym))).map (fun e => e.2)

/-- Dict assignment `holdings[symbol] = h`: replace in place, or append a new key. -/
def setHolding (hs : List (String × Holding)) (sym : String) (h : Holding) :
    List (String × Holding) :=
  if hs.any (fun e => decide (e.1 = sym)) then
    hs.map (fun e => if e.1 = sym then (sym, h) else e)
  else hs ++ [(sym, h)]

/-- Dict deletion `del holdings[symbol]`. -/
def removeHolding (hs : List (String × Holding)) (sym : String) : List (String × Holding) :=
  hs.filter (fun e => decide (e.1 ≠ sym))

/-- The running total of `_update_portfolio_value`: start from cash and add
`shares * price` for every held position whose price resolves. -/
def totalValue (mkt : Market) (s : SimState) : ℚ :=
  s.holdings.foldl
    (fun acc e =>
      if (0 : ℚ) < e.2.shares then
        match getPrice mkt e.1 s.current_date s.time_of_day with
        | some p => acc + e.2.shares * p
        | none => acc
      else acc)
    s.cash

/-- `_update_portfolio_value`: append a snapshot of the current total value. -/
def updatePortfolioValue (mkt : Market) (s : SimState) : SimState :=
  { s with portfolio_history :=
      s.portfolio_history ++ [⟨s.current_date, s.time_of_day, totalValue mkt s⟩] }

/-- The `shares` / `cash` fields of a buy or sell form, already decimal-parsed
(`None` stands for a missing or unparseable field). -/
structure TradeForm where
  shares : Option ℚ
  cash : Option ℚ

/-- `_parse_shares_from_form`: an explicit share count wins; otherwise convert a
cash amount at a positive price; truncate to 4 digits and reject non-positive
results. -/
def rawQuantity (form : TradeForm) (price : ℚ) : Option ℚ :=
  match form.shares with
  | some sv => some sv
  | none =>
    match form.cash with
    | some cv => if 0 < price then some (cv / price) else none
    | none => none

def parseSharesFromForm (form : TradeForm) (price : ℚ) : Option ℚ :=
  match rawQuantity form price with
  | none => none
  | some v => if qShares v ≤ 0 then none else some (qShares v)

inductive TradeError
  | noSymbol | priceUnavailable | marketClosed | invalidQuantity | zeroCost
  | insufficientFunds | marketCapExceeded | notOwned | nonPositiveShares | insufficientShares
deriving DecidableEq

def getMarketCapOf (mkt : Market) (sym : String) : Option ℚ :=
  (mkt sym).bind (fun d => d.marketCap)

/-- The market-capitalization guard of `execute_buy`: reject when a positive cap
is known and the resulting position's notional value would meet or exceed it. -/
def capCheck (mkt : Market) (sym : String) (s : SimState) (shares price : ℚ) : Bool :=
  match getMarketCapOf mkt sym with
  | some cap =>
    decide (0 < cap) &&
      decide (cap ≤ qShares (((lookupHolding s.holdings sym).getD ⟨0, 0⟩).shares + shares) * price)
  | none => false

/-- The state produced by a successful `execute_buy`: holding updated with the
weighted-average cost, cash debited, transaction appended, snapshot appended. -/
def buyState (mkt : Market) (sym : String) (s : SimState) (price shares : ℚ) : SimState :=
  let cost := qCash (shares * price)
  let holding := (lookupHolding s.holdings sym).getD ⟨0, 0⟩
  let newShares := qShares (holding.shares + shares)
  let avgCost :=
    if 0 < holding.shares ∧ 0 < newShares then
      qCash ((holding.shares * holding.avg_cost + cost) / newShares)
    else price
  updatePortfolioValue mkt
    { s with
      holdings := setHolding s.holdings sym ⟨newShares, avgCost⟩
      cash := qCash (s.cash - cost)
      transactions := s.transactions ++ [⟨s.current_date, s.time_of_day, "BUY", sym, shares, price, cost, none⟩] }

/-- `execute_buy`, with its checks in source order: symbol present, price
resolvable, weekend gate for non-crypto, quantity parse, positive cost,
sufficient funds, market-cap guard. -/
def executeBuy (mkt : Market) (sym : String) (form : TradeForm) (s : SimState) :
    Except TradeError SimState :=
  if sym = "" then .error .noSymbol
  else
    match getPrice mkt sym s.current_date s.time_of_day with
    | none => .error .priceUnavailable
    | some price =>
      if isWeekend s.current_date && !isCryptoSym sym then .error .marketClosed
      else
        match parseSharesFromForm form price with
        | none => .error .invalidQuantity
        | some shares =>
          if qCash (shares * price) ≤ 0 then .error .zeroCost
          else if s.cash < qCash (shares * price) then .error .insufficientFunds
          else if capCheck mkt sym s shares price then .error .marketCapExceeded
          else .ok (buyState mkt sym s price shares)

/-- The state produced by a successful `sell`: cash credited, holding reduced or
deleted, transaction (with profit/loss) appended, snapshot appended. -/
def sellState (mkt : Market) (sym : String) (s : SimState) (holding : Holding)
    (price shares : ℚ) : SimState :=
  let proceeds := qCash (shares * price)
  let profitLoss := proceeds - qCash (shares * holding.avg_cost)
  let remaining := qShares (holding.shares - shares)
  updatePortfolioValue mkt
    { s with
      cash := qCash (s.cash + proceeds)
      holdings :=
        if remaining ≤ 0 then removeHolding s.holdings sym
        else setHolding s.holdings sym ⟨remaining, holding.avg_cost⟩
      transactions := s.transactions ++ [⟨s.current_date, s.time_of_day, "SELL", sym, shares, price, proceeds, some profitLoss⟩] }

/-- `sell`, with its checks in source order: symbol owned, weekend gate for
non-crypto, price resolvable, quantity parse, positive quantity, sufficient
shares. -/
def executeSell (mkt : Market) (sym : String) (form : TradeForm) (s : SimState) :
    Except TradeError SimState :=
  match lookupHolding s.holdings sym with
  | none => .error .notOwned
  | some holding =>
    if isWeekend s.current_date && !isCryptoSym sym then .error .marketClosed
    else
      match getPrice mkt sym s.current_date s.time_of_day with
      | none => .error .priceUnavailable
      | some price =>
        match parseSharesFromForm form price with
        | none => .error .invalidQuantity
        | some shares =>
          if shares ≤ 0 then .error .nonPositiveShares
          else if holding.shares < shares then .error .insufficientShares
          else .ok (sellState mkt sym s holding price shares)

/-! ## Simulation clock (`next_time`, `_jump_forward`, `jump`) -/

/-- `next_time`: open advances to close of the same day; close advances to the
next day's open.  A revaluation snapshot is appended. -/
def advanceTick (mkt : Market) (s : SimState) : SimState :=
  updatePortfolioValue mkt
    (match s.time_of_day with
     | .openTod => { s with time_of_day := .closeTod }
     | .closeTod => { s with current_date := nextDay s.current_date, time_of_day := .openTod })

/-- One iteration of the month loop of `_jump_forward`: advance one calendar
month, force open, snapshot. -/
def stepMonthOpen (mkt : Market) (s : SimState) : SimState :=
  updatePortfolioValue mkt
    { s with current_date := addMonths s.current_date 1, time_of_day := .openTod }

/-- One iteration of the day loop of `_jump_forward`: advance one day, force
open, snapshot. -/
def stepDayOpen (mkt : Market) (s : SimState) : SimState :=
  updatePortfolioValue mkt
    { s with current_date := nextDay s.current_date, time_of_day := .openTod }

/-- `_jump_forward(days, months, years)`: run the month loop `months + 12*years`
times, then the day loop `days` times; if nothing progressed, snapshot once. -/
def jumpForward (mkt : Market) (days months years : ℕ) (s : SimState) : SimState :=
  let tm := months + 12 * years
  let s1 := (stepMonthOpen mkt)^[tm] s
  let s2 := (stepDayOpen mkt)^[days] s1
  if tm = 0 ∧ days = 0 then updatePortfolioValue mkt s2 else s2

/-- The intermediate-month loop of `jump`: while the cursor is before the
target, step one month; stop (without snapshotting) as soon as the stepped
cursor would pass the target.  `fuel` is an upper bound on the number of
iterations; `jumpToDate` passes a provably sufficient one. -/
def jumpLoop (mkt : Market) (t : Date) : ℕ → SimState → SimState
  | 0, s => s
  | Nat.succ fuel, s =>
    if toOrdinal s.current_date < toOrdinal t then
      let c := addMonths s.current_date 1
      if toOrdinal t < toOrdinal c then s
      else jumpLoop mkt t fuel
        (updatePortfolioValue mkt { s with current_date := c, time_of_day := .openTod })
    else s

inductive JumpResult
  | ok (s : SimState)
  | backwardJumpRejected (s : SimState)
deriving DecidableEq

def monthIndexZ (d : Date) : ℤ := (d.year : ℤ) * 12 + (d.month : ℤ)

/-- The `/jump` route: only forward jumps are allowed; a backward target is
rejected with the state untouched.  A legal jump walks month by month,
snapshotting at each intermediate month, then sets the exact final date and
snapshots once more. -/
def jumpToDate (mkt : Market) (t : Date) (s : SimState) : JumpResult :=
  if toOrdinal s.current_date ≤ toOrdinal t then
    let fuel := (monthIndexZ t + 1 - monthIndexZ s.current_date).toNat
    let s1 := jumpLoop mkt t fuel s
    .ok (updatePortfolioValue mkt { s1 with current_date := t, time_of_day := .openTod })
  else .backwardJumpRejected s

/-! ## History aggregation (`_aggregate_monthly_history`) -/

/-- A portfolio-history entry as consumed by the aggregator (date and value). -/
structure HistEntry where
  date : Date
  value : ℚ
deriving DecidableEq

/-- The `'%Y-%m'` month key. -/
def monthKey (d : Date) : ℕ × ℕ := (d.year, d.month)

/-- One step of the keyed latest-date reduction: on a fresh key append the
entry; on an existing key replace it only when the new entry's date is
strictly later. -/
def updKey (key : HistEntry → ℕ × ℕ) (acc : List ((ℕ × ℕ) × HistEntry)) (e : HistEntry) :
    List ((ℕ × ℕ) × HistEntry) :=
  match acc.find? (fun p => decide (p.1 = key e)) with
  | some ex =>
    if toOrdinal ex.2.date < toOrdinal e.date then
      acc.map (fun p => if p.1 = key e then (key e, e) else p)
    else acc
  | none => acc ++ [(key e, e)]

def reduceByKey (key : HistEntry → ℕ × ℕ) (l : List HistEntry) :
    List ((ℕ × ℕ) × HistEntry) :=
  l.foldl (updKey key) []

/-- Stable insertion for sorting by date (equal keys keep insertion order). -/
def insertByDate (e : HistEntry) : List HistEntry → List HistEntry
  | [] => [e]
  | x :: xs => if toOrdinal x.date ≤ toOrdinal e.date then x :: insertByDate e xs else e :: x :: xs

/-- `sorted(..., key=date)`: a stable sort by date. -/
def sortByDate (l : List HistEntry) : List HistEntry :=
  l.foldl (fun acc e => insertByDate e acc) []

/-- Step 1 of the aggregator: keep the latest-dated entry per `(year, month)`,
sorted ascending by date. -/
def sortedMonths (h : List HistEntry) : List HistEntry :=
  sortByDate ((reduceByKey (fun e => monthKey e.date) h).map (fun p => p.2))

/-- The re-bucketing key: `(year, (month - 1) // aggregation_months)`. -/
def periodKey (w : ℕ) (e : HistEntry) : ℕ × ℕ := (e.date.year, (e.date.month - 1) / w)

/-- Step 2 of the aggregator at bucket width `w`: keep the latest-dated monthly
point per period, sorted ascending by date. -/
def bucketAgg (w : ℕ) (ms : List HistEntry) : List HistEntry :=
  sortByDate ((reduceByKey (periodKey w) ms).map (fun p => p.2))

/-- `months_diff`: whole-month span between the first and last monthly points. -/
def monthsDiffOf (ms : List HistEntry) : ℤ :=
  match ms with
  | [] => 0
  | f :: rest =>
    let l := (f :: rest).getLast (List.cons_ne_nil f rest)
    ((l.date.year : ℤ) - (f.date.year : ℤ)) * 12 + ((l.date.month : ℤ) - (f.date.month : ℤ))

/-- `_aggregate_monthly_history`: monthly reduction, then adaptive re-bucketing
by the total month span (≤ 24 monthly, ≤ 120 quarterly, else semi-annual). -/
def aggregateHistory (h : List HistEntry) : List HistEntry :=
  match h with
  | [] => []
  | _ :: _ =>
    match sortedMonths h with
    | [] => []
    | f :: rest =>
      let md := monthsDiffOf (f :: rest)
      if md ≤ 24 then f :: rest
      else if md ≤ 120 then bucketAgg 3 (f :: rest)
      else bucketAgg 6 (f :: rest)

/-! ## Holdings dictionary lemmas -/

theorem lookupHolding_cons (x : String × Holding) (l : List (String × Holding)) (sym : String) :
    lookupHolding (x :: l) sym = if x.1 = sym then some x.2 else lookupHolding l sym := by
  unfold lookupHolding
  by_cases h : x.1 = sym
  · rw [List.find?_cons_of_pos l (by simp [h]), if_pos h]
    rfl
  · rw [List.find?_cons_of_neg l (by simp [h]), if_neg h]

theorem lookupHolding_map_replace (hs : List (String × Holding)) (sym : String) (h : Holding) :
    lookupHolding (hs.map (fun e => if e.1 = sym then (sym, h) else e)) sym =
      if hs.any (fun e => decide (e.1 = sym)) then some h else none := by
  induction hs with
  | nil => rfl
  | cons e tl ih =>
    by_cases he : e.1 = sym
    · simp [List.map_cons, if_pos he, lookupHolding_cons, List.any_cons, he]
    · simp only [List.map_cons, if_neg he, lookupHolding_cons, List.any_cons, he, if_false,
        decide_eq_true_eq, Bool.false_or, ih, decide_False, Bool.false_or]

theorem lookupHolding_append_single (hs : List (String × Holding)) (sym : String) (h : Holding)
    (hnone : ∀ e ∈ hs, e.1 ≠ sym) :
    lookupHolding (hs ++ [(sym, h)]) sym = some h := by
  induction hs with
  | nil => simp [lookupHolding]
  | cons e tl ih =>
    have he : e.1 ≠ sym := hnone e (List.mem_cons_self e tl)
    rw [List.cons_append, lookupHolding_cons, if_neg he]
    exact ih (fun x hx => hnone x (List.mem_cons_of_mem e hx))

theorem lookupHolding_set_self (hs : List (String × Holding)) (sym : String) (h : Holding) :
    lookupHolding (setHolding hs sym h) sym = some h := by
  unfold setHolding
  by_cases hany : hs.any (fun e => decide (e.1 = sym)) = true
  · rw [if_pos hany, lookupHolding_map_replace, if_pos hany]
  · rw [if_neg hany]
    refine lookupHolding_append_single hs sym h (fun e he => ?_)
    intro hkey
    exact hany (List.any_eq_true.mpr ⟨e, he, by simp [hkey]⟩)

theorem lookupHolding_remove_self (hs : List (String × Holding)) (sym : String) :
    lookupHolding (removeHolding hs sym) sym = none := by
  unfold lookupHolding removeHolding
  rw [List.find?_eq_none.mpr, Option.map_none']
  intro e he
  have := List.of_mem_filter he
  simp only [decide_eq_true_eq] at this ⊢
  exact this

/-! ## Characterization of `execute_buy` and `sell` -/

theorem executeBuy_eq_ok {mkt : Market} {sym : String} {form : TradeForm} {s : SimState}
    {price shares : ℚ}
    (hsym : ¬ sym = "")
    (hp : getPrice mkt sym s.current_date s.time_of_day = some price)
    (hw : (isWeekend s.current_date && !isCryptoSym sym) = false)
    (hq : parseSharesFromForm form price = some shares)
    (hc : ¬ qCash (shares * price) ≤ 0)
    (hf : ¬ s.cash < qCash (shares * price))
    (hcap : capCheck mkt sym s shares price = false) :
    executeBuy mkt sym form s = .ok (buyState mkt sym s price shares) := by
  unfold executeBuy
  rw [if_neg hsym, hp, hw]
  simp only [Bool.false_eq_true, if_false]
  rw [hq]
  simp only []
  rw [if_neg hc, if_neg hf, hcap]
  simp only [Bool.false_eq_true, if_false]

theorem executeBuy_ok_inv {mkt : Market} {sym : String} {form : TradeForm} {s s1 : SimState}
    (h : executeBuy mkt sym form s = .ok s1) :
    ∃ price shares,
      getPrice mkt sym s.current_date s.time_of_day = some price ∧
      (isWeekend s.current_date && !isCryptoSym sym) = false ∧
      parseSharesFromForm form price = some shares ∧
      ¬ qCash (shares * price) ≤ 0 ∧
      ¬ s.cash < qCash (shares * price) ∧
      capCheck mkt sym s shares price = false ∧
      ¬ sym = "" ∧ s1 = buyState mkt sym s price shares := by
  unfold executeBuy at h
  split at h
  · exact Except.noConfusion h
  split at h
  · exact Except.noConfusion h
  rename_i price hp
  split at h
  · exact Except.noConfusion h
  rename_i hw
  split at h
  · exact Except.noConfusion h
  rename_i shares hq
  split at h
  · exact Except.noConfusion h
  rename_i hc
  split at h
  · exact Except.noConfusion h
  rename_i hf
  split at h
  · exact Except.noConfusion h
  rename_i hcap
  refine ⟨price, shares, hp, by simpa using hw, hq, hc, hf, by simpa using hcap, by assumption,
    (Except.ok.injEq _ _).mp h.symm⟩

theorem executeSell_eq_ok {mkt : Market} {sym : String} {form : TradeForm} {s : SimState}
    {holding : Holding} {price shares : ℚ}
    (hh : lookupHolding s.holdings sym = some holding)
    (hw : (isWeekend s.current_date && !isCryptoSym sym) = false)
    (hp : getPrice mkt sym s.current_date s.time_of_day = some price)
    (hq : parseSharesFromForm form price = some shares)
    (hpos : ¬ shares ≤ 0)
    (hen : ¬ holding.shares < shares) :
    executeSell mkt sym form s = .ok (sellState mkt sym s holding price shares) := by
  unfold executeSell
  rw [hh]
  simp only []
  rw [hw]
  simp only [Bool.false_eq_true, if_false]
  rw [hp]
  simp only []
  rw [hq]
  simp only []
  rw [if_neg hpos, if_neg hen]

theorem executeSell_ok_inv {mkt : Market} {sym : String} {form : TradeForm} {s s1 : SimState}
    (h : executeSell mkt sym form s = .ok s1) :
    ∃ holding price shares,
      lookupHolding s.holdings sym = some holding ∧
      (isWeekend s.current_date && !isCryptoSym sym) = false ∧
      getPrice mkt sym s.current_date s.time_of_day = some price ∧
      parseSharesFromForm form price = some shares ∧
      ¬ shares ≤ 0 ∧
      ¬ holding.shares < shares ∧
      s1 = sellState mkt sym s holding price shares := by
  unfold executeSell at h
  split at h
  · exact Except.noConfusion h
  rename_i holding hh
  split at h
  · exact Except.noConfusion h
  rename_i hw
  split at h
  · exact Except.noConfusion h
  rename_i price hp
  split at h
  · exact Except.noConfusion h
  rename_i shares hq
  split at h
  · exact Except.noConfusion h
  rename_i hpos
  split at h
  · exact Except.noConfusion h
  rename_i hen
  exact ⟨holding, price, shares, hh, by simpa using hw, hp, hq, hpos, hen,
    (Except.ok.injEq _ _).mp h.symm⟩

/-- Successful parses are positive, 4-digit-quantized quantities. -/
theorem parseShares_pos {form : TradeForm} {price q : ℚ}
    (h : parseSharesFromForm form price = some q) : 0 < q ∧ qShares q = q := by
  unfold parseSharesFromForm at h
  split at h
  · exact Option.noConfusion h
  rename_i v hv
  split at h
  · exact Option.noConfusion h
  rename_i hle
  obtain rfl : qShares v = q := (Option.some.injEq _ _).mp h
  exact ⟨lt_of_not_ge (fun hge => hle (by linarith)), qShares_idem v⟩

/-! ## Snapshot value invariant (C1) -/

/-- The price the resolver knows for a symbol at a tick; `0` when no price is
known at all (the position then contributes nothing to the total). -/
def lastKnownPrice (mkt : Market) (sym : String) (d : Date) (tod : TimeOfDay) : ℚ :=
  (getPrice mkt sym d tod).getD 0

/-- The spec's snapshot-value formula:
`cash + Σ (holding.shares × last_known_price)` over all held symbols. -/
def specSnapshotValue (mkt : Market) (s : SimState) : ℚ :=
  s.cash +
    (s.holdings.map
      (fun e => e.2.shares * lastKnownPrice mkt e.1 s.current_date s.time_of_day)).sum

theorem foldl_value_eq (mkt : Market) (d : Date) (tod : TimeOfDay) :
    ∀ (l : List (String × Holding)) (acc : ℚ), (∀ e ∈ l, 0 ≤ e.2.shares) →
      l.foldl
        (fun acc e =>
          if (0 : ℚ) < e.2.shares then
            match getPrice mkt e.1 d tod with
            | some p => acc + e.2.shares * p
            | none => acc
          else acc)
        acc
      = acc + (l.map (fun e => e.2.shares * lastKnownPrice mkt e.1 d tod)).sum := by
  intro l
  induction l with
  | nil => intro acc _; simp
  | cons e tl ih =>
    intro acc h
    have he := h e (List.mem_cons_self e tl)
    have htl : ∀ x ∈ tl, 0 ≤ x.2.shares := fun x hx => h x (List.mem_cons_of_mem e hx)
    rw [List.foldl_cons, List.map_cons, List.sum_cons]
    by_cases hpos : (0 : ℚ) < e.2.shares
    · rw [if_pos hpos]
      cases hp : getPrice mkt e.1 d tod with
      | some p =>
        simp only []
        rw [ih _ htl]
        unfold lastKnownPrice
        rw [hp]
        simp only [Option.getD_some]
        ring
      | none =>
        simp only []
        rw [ih _ htl]
        unfold lastKnownPrice
        rw [hp]
        simp only [Option.getD_none, mul_zero, zero_add]
    · rw [if_neg hpos, ih _ htl]
      have hz : e.2.shares = 0 := le_antisymm (not_lt.mp hpos) he
      rw [hz, zero_mul, zero_add]

theorem totalValue_eq_spec (mkt : Market) (s : SimState)
    (h : ∀ e ∈ s.holdings, 0 ≤ e.2.shares) :
    totalValue mkt s = specSnapshotValue mkt s := by
  unfold totalValue specSnapshotValue
  exact foldl_value_eq mkt s.current_date s.time_of_day s.holdings s.cash h

/-- Claim C1: every appended portfolio snapshot records total value equal to
cash plus the sum over all held symbols of `holding.shares` times the last
known price of that symbol.  All snapshot appends go through
`_update_portfolio_value`, which is shown to append exactly one snapshot whose
value field satisfies the spec formula (holdings carry non-negative share
counts). -/
theorem claim_C1 (mkt : Market) (s : SimState) (h : ∀ e ∈ s.holdings, 0 ≤ e.2.shares) :
    (updatePortfolioValue mkt s).portfolio_history =
      s.portfolio_history ++ [⟨s.current_date, s.time_of_day, specSnapshotValue mkt s⟩] := by
  unfold updatePortfolioValue
  rw [totalValue_eq_spec mkt s h]

def c1mkt : Market := fun sym =>
  if sym = "AAA" then some ⟨[(⟨2000, 1, 3⟩, ⟨150, 160⟩)], some ⟨2000, 1, 3⟩, none⟩ else none

def c1s : SimState :=
  ⟨⟨2000, 1, 3⟩, .openTod, 8500, [("AAA", ⟨10, 150⟩)], [], []⟩

/-- Witness for C1 at a concrete state holding 10 shares of a priced symbol. -/
theorem claim_C1_witness :
    (∀ e ∈ c1s.holdings, 0 ≤ e.2.shares) ∧
      (updatePortfolioValue c1mkt c1s).portfolio_history =
        c1s.portfolio_history ++ [⟨c1s.current_date, c1s.time_of_day, specSnapshotValue c1mkt c1s⟩] :=
  ⟨by decide, claim_C1 c1mkt c1s (by decide)⟩

/-! ## Backward jumps are rejected (C2) -/

/-- Claim C2: a jump to a target strictly before the current date always fails
`BackwardJumpRejected` with the whole simulation state unchanged, and any
target on or after the current date is a legal jump. -/
theorem claim_C2 (mkt : Market) (t : Date) (s : SimState) :
    (toOrdinal t < toOrdinal s.current_date →
      jumpToDate mkt t s = .backwardJumpRejected s) ∧
    (toOrdinal s.current_date ≤ toOrdinal t →
      ∃ s2, jumpToDate mkt t s = .ok s2) := by
  constructor
  · intro hlt
    unfold jumpToDate
    rw [if_neg (not_le.mpr hlt)]
  · intro hle
    unfold jumpToDate
    rw [if_pos hle]
    exact ⟨_, rfl⟩

def c2mkt : Market := fun _ => none

def c2s : SimState := ⟨⟨2000, 2, 1⟩, .openTod, 10000, [], [], []⟩

/-- Witness for C2: a backward target is rejected leaving the state intact, a
forward target is legal. -/
theorem claim_C2_witness :
    (toOrdinal (⟨2000, 1, 1⟩ : Date) < toOrdinal c2s.current_date ∧
      jumpToDate c2mkt ⟨2000, 1, 1⟩ c2s = .backwardJumpRejected c2s) ∧
    (toOrdinal c2s.current_date ≤ toOrdinal (⟨2000, 3, 15⟩ : Date) ∧
      ∃ s2, jumpToDate c2mkt ⟨2000, 3, 15⟩ c2s = .ok s2) :=
  ⟨⟨by decide, (claim_C2 c2mkt ⟨2000, 1, 1⟩ c2s).1 (by decide)⟩,
   ⟨by decide, (claim_C2 c2mkt ⟨2000, 3, 15⟩ c2s).2 (by decide)⟩⟩

/-! ## Price probing (C5) -/

/-- Claim C5 (amended): provided the symbol's series is loaded and the
requested date passes the instrument-existence gate, `get_price` probes
neighboring calendar dates one day at a time (forward exactly for
crypto-assets, backward otherwise) and terminates within 10 attempts: a first
match at offset `k < 10` yields that bar's Open price at open and Close price
otherwise, and if all 10 probed dates miss (an 11th probe would be required)
the result is `Unavailable`. -/
theorem claim_C5 (mkt : Market) (sym : String) (d : Date) (tod : TimeOfDay)
    (data : SymbolData) (hd : mkt sym = some data) (hg : passesGate data d = true) :
    (∀ (bar : PriceBar) (k : ℕ), k < 10 →
      histLookup data.hist (probeDate (isCryptoSym sym) d k) = some bar →
      (∀ j < k, histLookup data.hist (probeDate (isCryptoSym sym) d j) = none) →
      getPrice mkt sym d tod = some (priceFromBar tod bar)) ∧
    ((∀ k < 10, histLookup data.hist (probeDate (isCryptoSym sym) d k) = none) →
      getPrice mkt sym d tod = none) := by
  constructor
  · intro bar k hk hfound hmin
    unfold getPrice
    rw [hd]
    simp only []
    rw [if_pos hg, probe_eq_some data.hist (isCryptoSym sym) 10 k d bar hk hfound hmin]
    rfl
  · intro hnone
    unfold getPrice
    rw [hd]
    simp only []
    rw [if_pos hg, probe_eq_none data.hist (isCryptoSym sym) 10 d hnone]
    rfl

def c5data : SymbolData := ⟨[(⟨2015, 8, 1⟩, ⟨7, 8⟩)], some ⟨2015, 8, 1⟩, none⟩

def c5mkt : Market := fun sym => if sym = "BTC-USD" then some c5data else none

/-- Witness for C5 at a concrete crypto market: an exact-date match (offset 0)
resolves to the bar's Open price. -/
theorem claim_C5_witness :
    c5mkt "BTC-USD" = some c5data ∧ passesGate c5data ⟨2015, 8, 1⟩ = true ∧
      getPrice c5mkt "BTC-USD" ⟨2015, 8, 1⟩ .openTod = some (priceFromBar .openTod ⟨7, 8⟩) :=
  ⟨by decide, by decide,
    (claim_C5 c5mkt "BTC-USD" ⟨2015, 8, 1⟩ .openTod c5data (by decide) (by decide)).1
      ⟨7, 8⟩ 0 (by decide) (by decide) (fun j hj => absurd hj (Nat.not_lt_zero j))⟩

/-- Counterexample to C5 as stated: for a crypto symbol queried one day before
its first-trade date, a match exists within the 10-attempt bound (offset 1,
forward), yet `get_price` returns `Unavailable` because the existence gate
fires before any probing. -/
theorem claim_C5_counterexample :
    isCryptoSym "BTC-USD" = true ∧
    (c5mkt "BTC-USD").map
        (fun data => histLookup data.hist (probeDate true ⟨2015, 7, 31⟩ 1)) =
      some (some ⟨7, 8⟩) ∧
    getPrice c5mkt "BTC-USD" ⟨2015, 7, 31⟩ .openTod = none := by
  refine ⟨by decide, by decide, by decide⟩

/-! ## Price change (C9) -/

/-- Claim C9: `get_price_change` returns `(None, None)` when the current price
is unavailable or zero; otherwise it probes backward up to 10 calendar days
for the most recent prior Close and returns the delta and percent change when
that Close is non-zero, `(0, 0)` when the prior value found is zero, and
`(0, 0)` when no prior Close is found within 10 days. -/
theorem claim_C9 (mkt : Market) (sym : String) (d : Date) (tod : TimeOfDay) :
    (mkt sym = none → getPriceChange mkt sym d tod = (none, none)) ∧
    (getPrice mkt sym d tod = none → getPriceChange mkt sym d tod = (none, none)) ∧
    (getPrice mkt sym d tod = some 0 → getPriceChange mkt sym d tod = (none, none)) ∧
    (∀ (data : SymbolData) (c : ℚ), mkt sym = some data →
      getPrice mkt sym d tod = some c → c ≠ 0 →
      ((∀ k < 10, histLookup data.hist (prevDay^[k + 1] d) = none) →
        getPriceChange mkt sym d tod = (some 0, some 0)) ∧
      (∀ (k : ℕ) (bar : PriceBar), k < 10 →
        histLookup data.hist (prevDay^[k + 1] d) = some bar →
        (∀ j < k, histLookup data.hist (prevDay^[j + 1] d) = none) →
        getPriceChange mkt sym d tod =
          (if bar.closeP = 0 then (some 0, some 0)
           else (some (c - bar.closeP), some ((c - bar.closeP) / bar.closeP * 100))))) := by
  refine ⟨?_, ?_, ?_, ?_⟩
  · intro h
    unfold getPriceChange
    rw [h]
  · intro h
    unfold getPriceChange
    cases hm : mkt sym with
    | none => rfl
    | some data => rw [h]
  · intro h
    unfold getPriceChange
    cases hm : mkt sym with
    | none => rfl
    | some data =>
      rw [h]
      simp
  · intro data c hdata hc hcz
    have hred : getPriceChange mkt sym d tod = backScan data.hist c 10 (prevDay d) := by
      unfold getPriceChange
      rw [hdata]
      simp only []
      rw [hc]
      simp only []
      rw [if_neg hcz]
    constructor
    · intro hnone
      rw [hred]
      exact backScan_eq_na data.hist c 10 (prevDay d)
        (fun k hk => by
          rw [← Function.iterate_succ_apply]
          exact hnone k hk)
    · intro k bar hk hfound hmin
      rw [hred]
      exact backScan_eq_found data.hist c 10 k (prevDay d) bar hk
        (by rw [← Function.iterate_succ_apply]; exact hfound)
        (fun j hj => by rw [← Function.iterate_succ_apply]; exact hmin j hj)

def c9mkt : Market := fun sym =>
  if sym = "AAA" then
    some ⟨[(⟨2000, 1, 3⟩, ⟨150, 160⟩), (⟨2000, 1, 4⟩, ⟨161, 165⟩)], some ⟨2000, 1, 3⟩, none⟩
  else none

/-- Witness for C9: a concrete change computation against the previous close. -/
theorem claim_C9_witness :
    (c9mkt "AAA" = some ⟨[(⟨2000, 1, 3⟩, ⟨150, 160⟩), (⟨2000, 1, 4⟩, ⟨161, 165⟩)],
        some ⟨2000, 1, 3⟩, none⟩) ∧
    getPrice c9mkt "AAA" ⟨2000, 1, 4⟩ .openTod = some 161 ∧
    getPriceChange c9mkt "AAA" ⟨2000, 1, 4⟩ .openTod =
      (if (160 : ℚ) = 0 then (some 0, some 0)
       else (some ((161 : ℚ) - 160), some (((161 : ℚ) - 160) / 160 * 100))) :=
  ⟨by decide, by decide,
    ((claim_C9 c9mkt "AAA" ⟨2000, 1, 4⟩ .openTod).2.2.2
        ⟨[(⟨2000, 1, 3⟩, ⟨150, 160⟩), (⟨2000, 1, 4⟩, ⟨161, 165⟩)], some ⟨2000, 1, 3⟩, none⟩
        161 (by decide) (by decide) (by norm_num)).2 0 ⟨150, 160⟩ (by decide) (by decide)
      (fun j hj => absurd hj (Nat.not_lt_zero j))⟩

/-! ## Buy-form quantity parsing (C10) -/

/-- Claim C10: an explicit share count takes precedence over a cash amount,
which is only converted at a strictly positive price; the parsed quantity is
rejected whenever it truncates to ≤ 0 at 4 fractional digits (so every
accepted quantity is positive and 4-digit quantized). -/
theorem claim_C10 :
    (∀ (sv : ℚ) (c1 c2 : Option ℚ) (p : ℚ),
      parseSharesFromForm ⟨some sv, c1⟩ p = parseSharesFromForm ⟨some sv, c2⟩ p) ∧
    (∀ (cv p : ℚ), 0 < p →
      parseSharesFromForm ⟨none, some cv⟩ p =
        (if qShares (cv / p) ≤ 0 then none else some (qShares (cv / p)))) ∧
    (∀ (cv p : ℚ), ¬ 0 < p → parseSharesFromForm ⟨none, some cv⟩ p = none) ∧
    (∀ (form : TradeForm) (p q : ℚ),
      parseSharesFromForm form p = some q → 0 < q ∧ qShares q = q) ∧
    (∀ (sv : ℚ) (c : Option ℚ) (p : ℚ), qShares sv ≤ 0 →
      parseSharesFromForm ⟨some sv, c⟩ p = none) := by
  refine ⟨?_, ?_, ?_, ?_, ?_⟩
  · intro sv c1 c2 p
    rfl
  · intro cv p hp
    unfold parseSharesFromForm rawQuantity
    simp only []
    rw [if_pos hp]
  · intro cv p hp
    unfold parseSharesFromForm rawQuantity
    simp only []
    rw [if_neg hp]
  · intro form p q h
    exact parseShares_pos h
  · intro sv c p h
    unfold parseSharesFromForm rawQuantity
    simp only []
    rw [if_pos h]

/-- Witness for C10: cash-to-shares conversion at a concrete positive price,
and rejection at a non-positive price. -/
theorem claim_C10_witness :
    ((0 : ℚ) < 2 ∧
      parseSharesFromForm ⟨none, some 1⟩ 2 =
        (if qShares ((1 : ℚ) / 2) ≤ 0 then none else some (qShares ((1 : ℚ) / 2)))) ∧
    (¬ (0 : ℚ) < 0 ∧ parseSharesFromForm ⟨none, some 1⟩ 0 = none) ∧
    (qShares (0 : ℚ) ≤ 0 ∧ ∀ c, parseSharesFromForm ⟨some 0, c⟩ 5 = none) :=
  ⟨⟨by norm_num, claim_C10.2.1 1 2 (by norm_num)⟩,
   ⟨by norm_num, claim_C10.2.2.1 1 0 (by norm_num)⟩,
   ⟨by rw [qShares_zero], fun c => claim_C10.2.2.2.2 0 c 5 (by rw [qShares_zero])⟩⟩

/-! ## Weekend market-closed gate (C6) -/

theorem capCheck_of_none {mkt : Market} {sym : String} (s : SimState) (shares price : ℚ)
    (h : getMarketCapOf mkt sym = none) : capCheck mkt sym s shares price = false := by
  unfold capCheck
  rw [h]

theorem capCheck_of_small {mkt : Market} {sym : String} {s : SimState} {shares price : ℚ}
    (h : ∀ cap, getMarketCapOf mkt sym = some cap → 0 < cap →
      qShares (((lookupHolding s.holdings sym).getD ⟨0, 0⟩).shares + shares) * price < cap) :
    capCheck mkt sym s shares price = false := by
  unfold capCheck
  cases hm : getMarketCapOf mkt sym with
  | none => rfl
  | some cap =>
    simp only []
    by_cases h0 : 0 < cap
    · have := h cap hm h0
      simp [not_le.mpr this]
    · simp [h0]

/-- Claim C6 (amended): a weekend buy of a non-crypto symbol fails
`MarketClosed` provided the price is resolvable (an unresolvable price fails
`PriceUnavailable` first); a weekend sell of an owned non-crypto symbol fails
`MarketClosed` (its weekend check precedes price resolution); a weekend
crypto buy succeeds whenever the price is resolvable and the other
preconditions (valid quantity, positive cost, sufficient funds, market-cap
guard) hold; and a weekend crypto sell of an owned symbol likewise succeeds
whenever the price is resolvable, the quantity parses, and it does not exceed
the held shares. -/
theorem claim_C6 (mkt : Market) (sym : String) (form : TradeForm) (s : SimState) :
    (isWeekend s.current_date = true → isCryptoSym sym = false → ¬ sym = "" →
      (∃ p, getPrice mkt sym s.current_date s.time_of_day = some p) →
      executeBuy mkt sym form s = .error .marketClosed) ∧
    (isWeekend s.current_date = true → isCryptoSym sym = false →
      (∃ h, lookupHolding s.holdings sym = some h) →
      executeSell mkt sym form s = .error .marketClosed) ∧
    (∀ (p shares : ℚ), isWeekend s.current_date = true → isCryptoSym sym = true →
      getPrice mkt sym s.current_date s.time_of_day = some p →
      parseSharesFromForm form p = some shares →
      0 < qCash (shares * p) → qCash (shares * p) ≤ s.cash →
      (∀ cap, getMarketCapOf mkt sym = some cap → 0 < cap →
        qShares (((lookupHolding s.holdings sym).getD ⟨0, 0⟩).shares + shares) * p < cap) →
      ¬ sym = "" →
      ∃ s1, executeBuy mkt sym form s = .ok s1) ∧
    (∀ (p shares : ℚ) (holding : Holding), isWeekend s.current_date = true →
      isCryptoSym sym = true →
      lookupHolding s.holdings sym = some holding →
      getPrice mkt sym s.current_date s.time_of_day = some p →
      parseSharesFromForm form p = some shares →
      ¬ holding.shares < shares →
      ∃ s1, executeSell mkt sym form s = .ok s1) := by
  refine ⟨?_, ?_, ?_, ?_⟩
  · intro hw hcr hsym ⟨p, hp⟩
    unfold executeBuy
    rw [if_neg hsym, hp]
    simp only []
    rw [hw, hcr]
    simp only [Bool.not_false, Bool.and_true, if_true]
  · intro hw hcr ⟨h, hh⟩
    unfold executeSell
    rw [hh]
    simp only []
    rw [hw, hcr]
    simp only [Bool.not_false, Bool.and_true, if_true]
  · intro p shares _ hcr hp hq hc hf hcap hsym
    exact ⟨_, executeBuy_eq_ok hsym hp (by rw [hcr]; simp) hq (not_le.mpr hc)
      (not_lt.mpr hf) (capCheck_of_small hcap)⟩
  · intro p shares holding _ hcr hh hp hq hen
    exact ⟨_, executeSell_eq_ok hh (by rw [hcr]; simp) hp hq
      (not_le.mpr (parseShares_pos hq).1) hen⟩

def c6emkt : Market := fun _ => none

def c6s : SimState := ⟨⟨2000, 1, 1⟩, .openTod, 10000, [], [], []⟩

/-- Counterexample to C6 as stated: 2000-01-01 is a Saturday, yet a buy of the
non-crypto symbol IBM whose price cannot be resolved fails `PriceUnavailable`,
not `MarketClosed` — the price check runs before the weekend check in
`execute_buy`. -/
theorem claim_C6_counterexample :
    isWeekend c6s.current_date = true ∧ isCryptoSym "IBM" = false ∧
    executeBuy c6emkt "IBM" ⟨some 1, none⟩ c6s = .error .priceUnavailable ∧
    TradeError.priceUnavailable ≠ TradeError.marketClosed :=
  ⟨by decide, by decide, rfl, by decide⟩

theorem qShares_one : qShares 1 = 1 :=
  qShares_eq_of_isMulOf ⟨10000, by norm_num⟩

def c6cmkt : Market := fun sym =>
  if sym = "BTC-USD" then some ⟨[(⟨2015, 8, 1⟩, ⟨7, 8⟩)], some ⟨2015, 8, 1⟩, none⟩
  else if sym = "IBM" then some ⟨[(⟨2015, 7, 31⟩, ⟨5, 6⟩)], some ⟨2015, 7, 31⟩, none⟩
  else none

def c6cs : SimState := ⟨⟨2015, 8, 1⟩, .openTod, 10000, [], [], []⟩

def c6ss : SimState := ⟨⟨2015, 8, 1⟩, .openTod, 10000, [("BTC-USD", ⟨2, 5⟩)], [], []⟩

/-- Witness for C6: on Saturday 2015-08-01, a non-crypto buy with a resolvable
price fails `MarketClosed`, while a Bitcoin buy succeeds and a Bitcoin sell of
an owned position succeeds. -/
theorem claim_C6_witness :
    (isWeekend c6s.current_date = true ∧
      executeBuy c6cmkt "IBM" ⟨some 1, none⟩ c6cs = .error .marketClosed) ∧
    (isWeekend c6cs.current_date = true ∧ isCryptoSym "BTC-USD" = true ∧
      ∃ s1, executeBuy c6cmkt "BTC-USD" ⟨some 1, none⟩ c6cs = .ok s1) ∧
    (isWeekend c6ss.current_date = true ∧
      lookupHolding c6ss.holdings "BTC-USD" = some ⟨2, 5⟩ ∧
      ∃ s1, executeSell c6cmkt "BTC-USD" ⟨some 1, none⟩ c6ss = .ok s1) := by
  have hparse : parseSharesFromForm ⟨some 1, none⟩ 7 = some 1 := by
    unfold parseSharesFromForm rawQuantity
    simp only []
    rw [qShares_one]
    norm_num
  have hqc : qCash ((1 : ℚ) * 7) = 7 := by
    rw [one_mul]
    exact qCash_eq_of_isMulOf ⟨700, by norm_num⟩
  refine ⟨⟨by decide, ?_⟩, ⟨by decide, by decide, ?_⟩, ⟨by decide, by decide, ?_⟩⟩
  · refine (claim_C6 c6cmkt "IBM" ⟨some 1, none⟩ c6cs).1 (by decide) (by decide) (by decide)
      ⟨5, by decide⟩
  · refine (claim_C6 c6cmkt "BTC-USD" ⟨some 1, none⟩ c6cs).2.2.1 7 1 (by decide) (by decide)
      (by decide) hparse (by rw [hqc]; norm_num) (by rw [hqc]; show (7 : ℚ) ≤ 10000; norm_num)
      (fun cap hm _ => by
        rw [show getMarketCapOf c6cmkt "BTC-USD" = none from rfl] at hm
        exact Option.noConfusion hm)
      (by decide)
  · refine (claim_C6 c6cmkt "BTC-USD" ⟨some 1, none⟩ c6ss).2.2.2 7 1 ⟨2, 5⟩ (by decide)
      (by decide) (by decide) (by decide) hparse ?_
    show ¬ (2 : ℚ) < 1
    norm_num

/-! ## Buy-then-sell round trip (C3) -/

theorem buyState_current_date (mkt : Market) (sym : String) (s : SimState) (price shares : ℚ) :
    (buyState mkt sym s price shares).current_date = s.current_date := rfl

theorem buyState_time_of_day (mkt : Market) (sym : String) (s : SimState) (price shares : ℚ) :
    (buyState mkt sym s price shares).time_of_day = s.time_of_day := rfl

theorem buyState_cash (mkt : Market) (sym : String) (s : SimState) (price shares : ℚ) :
    (buyState mkt sym s price shares).cash = qCash (s.cash - qCash (shares * price)) := rfl

theorem buyState_holdings (mkt : Market) (sym : String) (s : SimState) (price shares : ℚ) :
    (buyState mkt sym s price shares).holdings =
      setHolding s.holdings sym
        ⟨qShares (((lookupHolding s.holdings sym).getD ⟨0, 0⟩).shares + shares),
          if 0 < ((lookupHolding s.holdings sym).getD ⟨0, 0⟩).shares ∧
              0 < qShares (((lookupHolding s.holdings sym).getD ⟨0, 0⟩).shares + shares) then
            qCash ((((lookupHolding s.holdings sym).getD ⟨0, 0⟩).shares *
                  ((lookupHolding s.holdings sym).getD ⟨0, 0⟩).avg_cost + qCash (shares * price)) /
                qShares (((lookupHolding s.holdings sym).getD ⟨0, 0⟩).shares + shares))
          else price⟩ := rfl

theorem sellState_current_date (mkt : Market) (sym : String) (s : SimState) (holding : Holding)
    (price shares : ℚ) :
    (sellState mkt sym s holding price shares).current_date = s.current_date := rfl

theorem sellState_cash (mkt : Market) (sym : String) (s : SimState) (holding : Holding)
    (price shares : ℚ) :
    (sellState mkt sym s holding price shares).cash = qCash (s.cash + qCash (shares * price)) := rfl

theorem sellState_holdings (mkt : Market) (sym : String) (s : SimState) (holding : Holding)
    (price shares : ℚ) :
    (sellState mkt sym s holding price shares).holdings =
      if qShares (holding.shares - shares) ≤ 0 then removeHolding s.holdings sym
      else setHolding s.holdings sym ⟨qShares (holding.shares - shares), holding.avg_cost⟩ := rfl

/-- Claim C3 (amended): when the symbol is not already held, a successful buy
of form-specified quantity at the resolved price followed immediately by a
sell of the same quantity at the same (unchanged) price succeeds, restores
cash exactly to its pre-buy value, and removes the holding.  (With a prior
position the holding is not removed; see the counterexample.) -/
theorem claim_C3 (mkt : Market) (sym : String) (form : TradeForm) (s s1 : SimState)
    (hcash : IsMulOf 100 s.cash)
    (hnew : lookupHolding s.holdings sym = none)
    (hbuy : executeBuy mkt sym form s = .ok s1) :
    ∃ s2, executeSell mkt sym form s1 = .ok s2 ∧ s2.cash = s.cash ∧
      lookupHolding s2.holdings sym = none := by
  obtain ⟨price, shares, hp, hw, hq, hc, hf, hcap, hsym, rfl⟩ := executeBuy_ok_inv hbuy
  obtain ⟨hqpos, hqeq⟩ := parseShares_pos hq
  have hh1 : lookupHolding (buyState mkt sym s price shares).holdings sym =
      some ⟨shares, price⟩ := by
    rw [buyState_holdings, hnew]
    simp only [Option.getD_none]
    rw [zero_add, hqeq, if_neg (by simp [lt_irrefl]), lookupHolding_set_self]
  have hb1cash : (buyState mkt sym s price shares).cash = s.cash - qCash (shares * price) := by
    rw [buyState_cash]
    exact qCash_eq_of_isMulOf (isMulOf_sub hcash (qCash_isMulOf _))
  refine ⟨sellState mkt sym (buyState mkt sym s price shares) ⟨shares, price⟩ price shares,
    ?_, ?_, ?_⟩
  · exact executeSell_eq_ok hh1 (by rw [buyState_current_date]; exact hw)
      (by rw [buyState_current_date, buyState_time_of_day]; exact hp) hq
      (not_le.mpr hqpos) (by show ¬ shares < shares; exact lt_irrefl shares)
  · rw [sellState_cash, hb1cash, show s.cash - qCash (shares * price) + qCash (shares * price)
        = s.cash by ring]
    exact qCash_eq_of_isMulOf hcash
  · rw [sellState_holdings, show ((⟨shares, price⟩ : Holding)).shares = shares from rfl,
      qShares_self_sub_self, if_pos le_rfl]
    exact lookupHolding_remove_self _ _

theorem qCash_one : qCash 1 = 1 :=
  qCash_eq_of_isMulOf ⟨100, by norm_num⟩

theorem qShares_two : qShares 2 = 2 :=
  qShares_eq_of_isMulOf ⟨20000, by norm_num⟩

def c3mkt : Market := fun sym =>
  if sym = "AAA" then some ⟨[(⟨2000, 1, 3⟩, ⟨1, 1⟩)], some ⟨2000, 1, 3⟩, none⟩ else none

def c3s : SimState := ⟨⟨2000, 1, 3⟩, .openTod, 100, [("AAA", ⟨1, 1⟩)], [], []⟩

/-- Counterexample to C3 as stated: starting from a state that already holds 1
share of AAA, buying 1 share at price 1 and selling 1 share at price 1
restores cash to 100 but leaves the holding in place (1 share remains), so
the holding is not removed from the holdings map. -/
theorem claim_C3_counterexample :
    lookupHolding c3s.holdings "AAA" = some ⟨1, 1⟩ ∧
    ((executeBuy c3mkt "AAA" ⟨some 1, none⟩ c3s).toOption.bind
        (fun s1 => (executeSell c3mkt "AAA" ⟨some 1, none⟩ s1).toOption)).map
      (fun s2 => (s2.cash, lookupHolding s2.holdings "AAA")) = some (100, some ⟨1, 1⟩) := by
  have hparse : parseSharesFromForm ⟨some 1, none⟩ 1 = some 1 := by
    unfold parseSharesFromForm rawQuantity
    simp only []
    rw [qShares_one]
    norm_num
  have hqc1 : qCash ((1 : ℚ) * 1) = 1 := by rw [one_mul, qCash_one]
  have hbuy : executeBuy c3mkt "AAA" ⟨some 1, none⟩ c3s = .ok (buyState c3mkt "AAA" c3s 1 1) :=
    executeBuy_eq_ok (by decide) (by decide) (by decide) hparse
      (by rw [hqc1]; norm_num) (by rw [hqc1]; norm_num [c3s])
      (capCheck_of_none _ _ _ rfl)
  have hlook : lookupHolding c3s.holdings "AAA" = some ⟨1, 1⟩ := by decide
  have hbh : (buyState c3mkt "AAA" c3s 1 1).holdings = setHolding c3s.holdings "AAA" ⟨2, 1⟩ := by
    rw [buyState_holdings, hlook]
    simp only [Option.getD_some]
    rw [show (1 : ℚ) + 1 = 2 by norm_num, qShares_two, hqc1]
    rw [if_pos ⟨by norm_num, by norm_num⟩]
    rw [show ((1 : ℚ) * 1 + 1) / 2 = 1 by norm_num, qCash_one]
  have hh : lookupHolding (buyState c3mkt "AAA" c3s 1 1).holdings "AAA" = some ⟨2, 1⟩ := by
    rw [hbh, lookupHolding_set_self]
  have hsell : executeSell c3mkt "AAA" ⟨some 1, none⟩ (buyState c3mkt "AAA" c3s 1 1) =
      .ok (sellState c3mkt "AAA" (buyState c3mkt "AAA" c3s 1 1) ⟨2, 1⟩ 1 1) :=
    executeSell_eq_ok hh (by rw [buyState_current_date]; decide)
      (by rw [buyState_current_date, buyState_time_of_day]; decide) hparse
      (by norm_num) (by show ¬ (2 : ℚ) < 1; norm_num)
  have hscash : (sellState c3mkt "AAA" (buyState c3mkt "AAA" c3s 1 1) ⟨2, 1⟩ 1 1).cash = 100 := by
    rw [sellState_cash, hqc1, buyState_cash, hqc1,
      show c3s.cash = 100 from rfl, show (100 : ℚ) - 1 = 99 by norm_num,
      show qCash (99 : ℚ) = 99 from qCash_eq_of_isMulOf ⟨9900, by norm_num⟩,
      show (99 : ℚ) + 1 = 100 by norm_num]
    exact qCash_eq_of_isMulOf ⟨10000, by norm_num⟩
  have hshold : lookupHolding
      (sellState c3mkt "AAA" (buyState c3mkt "AAA" c3s 1 1) ⟨2, 1⟩ 1 1).holdings "AAA" =
      some ⟨1, 1⟩ := by
    rw [sellState_holdings, show ((⟨2, 1⟩ : Holding)).shares = 2 from rfl,
      show (2 : ℚ) - 1 = 1 by norm_num, qShares_one, if_neg (by norm_num),
      show ((⟨2, 1⟩ : Holding)).avg_cost = 1 from rfl, lookupHolding_set_self]
  refine ⟨hlook, ?_⟩
  rw [hbuy]
  show ((executeSell c3mkt "AAA" ⟨some 1, none⟩ (buyState c3mkt "AAA" c3s 1 1)).toOption).map _ =
    _
  rw [hsell]
  show some _ = _
  rw [Option.some.injEq, Prod.mk.injEq]
  exact ⟨hscash, hshold⟩

theorem qShares_ten : qShares 10 = 10 :=
  qShares_eq_of_isMulOf ⟨100000, by norm_num⟩

def c3wmkt : Market := fun sym =>
  if sym = "AAA" then some ⟨[(⟨2000, 1, 3⟩, ⟨150, 160⟩)], some ⟨2000, 1, 3⟩, none⟩ else none

def c3ws : SimState := ⟨⟨2000, 1, 3⟩, .openTod, 10000, [], [], []⟩

/-- Witness for C3: buying 10 fresh shares at 150 and selling them back at the
same tick restores cash to 10000 and empties the position. -/
theorem claim_C3_witness :
    IsMulOf 100 c3ws.cash ∧ lookupHolding c3ws.holdings "AAA" = none ∧
    executeBuy c3wmkt "AAA" ⟨some 10, none⟩ c3ws = .ok (buyState c3wmkt "AAA" c3ws 150 10) ∧
    ∃ s2, executeSell c3wmkt "AAA" ⟨some 10, none⟩ (buyState c3wmkt "AAA" c3ws 150 10) = .ok s2 ∧
      s2.cash = c3ws.cash ∧ lookupHolding s2.holdings "AAA" = none := by
  have hparse : parseSharesFromForm ⟨some 10, none⟩ 150 = some 10 := by
    unfold parseSharesFromForm rawQuantity
    simp only []
    rw [qShares_ten]
    norm_num
  have hqc : qCash ((10 : ℚ) * 150) = 1500 := by
    rw [show ((10 : ℚ) * 150) = 1500 by norm_num]
    exact qCash_eq_of_isMulOf ⟨150000, by norm_num⟩
  have hbuy : executeBuy c3wmkt "AAA" ⟨some 10, none⟩ c3ws =
      .ok (buyState c3wmkt "AAA" c3ws 150 10) :=
    executeBuy_eq_ok (by decide) (by decide) (by decide) hparse
      (by rw [hqc]; norm_num)
      (by rw [hqc]; norm_num [c3ws])
      (capCheck_of_none _ _ _ rfl)
  exact ⟨⟨1000000, by norm_num [c3ws]⟩, rfl, hbuy,
    claim_C3 c3wmkt "AAA" ⟨some 10, none⟩ c3ws _ ⟨1000000, by norm_num [c3ws]⟩ rfl hbuy⟩

/-! ## Weighted-average cost on buys (C4) -/

theorem qShares_five : qShares 5 = 5 :=
  qShares_eq_of_isMulOf ⟨50000, by norm_num⟩

theorem qShares_fifteen : qShares 15 = 15 :=
  qShares_eq_of_isMulOf ⟨150000, by norm_num⟩

def c4mkt : Market := fun sym =>
  if sym = "AAA" then some ⟨[(⟨2000, 1, 3⟩, ⟨150, 160⟩)], some ⟨2000, 1, 3⟩, none⟩ else none

def c4s0 : SimState := ⟨⟨2000, 1, 3⟩, .openTod, 10000, [], [], []⟩

theorem c4_parse10 : parseSharesFromForm ⟨some 10, none⟩ 150 = some 10 := by
  unfold parseSharesFromForm rawQuantity
  simp only []
  rw [qShares_ten]
  norm_num

theorem c4_qc1500 : qCash ((10 : ℚ) * 150) = 1500 := by
  rw [show ((10 : ℚ) * 150) = 1500 by norm_num]
  exact qCash_eq_of_isMulOf ⟨150000, by norm_num⟩

theorem c4_buy1 : executeBuy c4mkt "AAA" ⟨some 10, none⟩ c4s0 =
    .ok (buyState c4mkt "AAA" c4s0 150 10) :=
  executeBuy_eq_ok (by decide) (by decide) (by decide) c4_parse10
    (by rw [c4_qc1500]; norm_num) (by rw [c4_qc1500]; norm_num [c4s0])
    (capCheck_of_none _ _ _ rfl)

theorem c4_b1_cash : (buyState c4mkt "AAA" c4s0 150 10).cash = 8500 := by
  rw [buyState_cash, c4_qc1500, show c4s0.cash - 1500 = (8500 : ℚ) by norm_num [c4s0]]
  exact qCash_eq_of_isMulOf ⟨850000, by norm_num⟩

theorem c4_b1_lookup :
    lookupHolding (buyState c4mkt "AAA" c4s0 150 10).holdings "AAA" = some ⟨10, 150⟩ := by
  rw [buyState_holdings, show lookupHolding c4s0.holdings "AAA" = none from rfl]
  simp only [Option.getD_none]
  rw [zero_add, qShares_ten, if_neg (by simp [lt_irrefl]), lookupHolding_set_self]

theorem c4_parse5 : parseSharesFromForm ⟨some 5, none⟩ 160 = some 5 := by
  unfold parseSharesFromForm rawQuantity
  simp only []
  rw [qShares_five]
  norm_num

theorem c4_qc800 : qCash ((5 : ℚ) * 160) = 800 := by
  rw [show ((5 : ℚ) * 160) = 800 by norm_num]
  exact qCash_eq_of_isMulOf ⟨80000, by norm_num⟩

theorem c4_buy2 :
    executeBuy c4mkt "AAA" ⟨some 5, none⟩ (advanceTick c4mkt (buyState c4mkt "AAA" c4s0 150 10)) =
      .ok (buyState c4mkt "AAA" (advanceTick c4mkt (buyState c4mkt "AAA" c4s0 150 10)) 160 5) :=
  executeBuy_eq_ok (by decide)
    (show getPrice c4mkt "AAA" (⟨2000, 1, 3⟩ : Date) .closeTod = some 160 by decide)
    (show (isWeekend (⟨2000, 1, 3⟩ : Date) && !isCryptoSym "AAA") = false by decide)
    c4_parse5 (by rw [c4_qc800]; norm_num)
    (by
      show ¬ (buyState c4mkt "AAA" c4s0 150 10).cash < qCash ((5 : ℚ) * 160)
      rw [c4_b1_cash, c4_qc800]
      norm_num)
    (capCheck_of_none _ _ _ rfl)

theorem c4_qcavg : qCash (((10 : ℚ) * 150 + 800) / 15) = 15333 / 100 := by
  rw [show ((10 : ℚ) * 150 + 800) / 15 = 2300 / 15 by norm_num]
  unfold qCash truncTo
  norm_num

theorem c4_b2_lookup :
    lookupHolding
      (buyState c4mkt "AAA" (advanceTick c4mkt (buyState c4mkt "AAA" c4s0 150 10)) 160 5).holdings
      "AAA" = some ⟨15, 15333 / 100⟩ := by
  rw [buyState_holdings,
    show lookupHolding (advanceTick c4mkt (buyState c4mkt "AAA" c4s0 150 10)).holdings "AAA" =
      some ⟨10, 150⟩ from c4_b1_lookup]
  simp only [Option.getD_some]
  rw [show (10 : ℚ) + 5 = 15 by norm_num, qShares_fifteen, c4_qc800,
    if_pos ⟨by norm_num, by norm_num⟩, c4_qcavg, lookupHolding_set_self]

/-- Claim C4: a successful buy into an existing position sets the average cost
to `(oldShares × oldAvgCost + cost) / newShares` truncated toward zero to 2
digits, and to the trade price for a new position; in particular, from cash
10000.00, buying 10 shares at 150.00 leaves cash 8500.00 and holding
{10, 150.00}, and buying 5 more at 160.00 leaves holding {15, 153.33}. -/
theorem claim_C4 (mkt : Market) (sym : String) (form : TradeForm) (s s1 : SimState)
    (price shares : ℚ)
    (hbuy : executeBuy mkt sym form s = .ok s1)
    (hp : getPrice mkt sym s.current_date s.time_of_day = some price)
    (hq : parseSharesFromForm form price = some shares) :
    (∀ holding, lookupHolding s.holdings sym = some holding → 0 < holding.shares →
      0 < qShares (holding.shares + shares) →
      lookupHolding s1.holdings sym =
        some ⟨qShares (holding.shares + shares),
          qCash ((holding.shares * holding.avg_cost + qCash (shares * price)) /
            qShares (holding.shares + shares))⟩) ∧
    (lookupHolding s.holdings sym = none →
      lookupHolding s1.holdings sym = some ⟨shares, price⟩) ∧
    ((buyState c4mkt "AAA" c4s0 150 10).cash = 8500 ∧
      lookupHolding (buyState c4mkt "AAA" c4s0 150 10).holdings "AAA" = some ⟨10, 150⟩ ∧
      lookupHolding
        (buyState c4mkt "AAA" (advanceTick c4mkt (buyState c4mkt "AAA" c4s0 150 10)) 160 5).holdings
        "AAA" = some ⟨15, 15333 / 100⟩) := by
  obtain ⟨price', shares', hp', hw, hq', hc, hf, hcap, hsym, rfl⟩ := executeBuy_ok_inv hbuy
  obtain rfl : price' = price := by rw [hp] at hp'; exact ((Option.some.injEq _ _).mp hp'.symm)
  obtain rfl : shares' = shares := by rw [hq] at hq'; exact ((Option.some.injEq _ _).mp hq'.symm)
  refine ⟨?_, ?_, c4_b1_cash, c4_b1_lookup, c4_b2_lookup⟩
  · intro holding hhold h1 h2
    rw [buyState_holdings, hhold]
    simp only [Option.getD_some]
    rw [if_pos ⟨h1, h2⟩, lookupHolding_set_self]
  · intro hnone
    rw [buyState_holdings, hnone]
    simp only [Option.getD_none]
    rw [zero_add, (parseShares_pos hq).2, if_neg (by simp [lt_irrefl]), lookupHolding_set_self]

/-- Witness for C4: the scenario's first buy creates a fresh position
{10 shares, avg cost 150}. -/
theorem claim_C4_witness :
    executeBuy c4mkt "AAA" ⟨some 10, none⟩ c4s0 = .ok (buyState c4mkt "AAA" c4s0 150 10) ∧
    getPrice c4mkt "AAA" c4s0.current_date c4s0.time_of_day = some 150 ∧
    parseSharesFromForm ⟨some 10, none⟩ 150 = some 10 ∧
    lookupHolding c4s0.holdings "AAA" = none ∧
    lookupHolding (buyState c4mkt "AAA" c4s0 150 10).holdings "AAA" = some ⟨10, 150⟩ :=
  ⟨c4_buy1, by decide, c4_parse10, rfl,
    (claim_C4 c4mkt "AAA" ⟨some 10, none⟩ c4s0 _ 150 10 c4_buy1 (by decide) c4_parse10).2.1 rfl⟩

/-! ## Month/year clock advancement (C7) -/

/-- One-month calendar step (`_add_months(date, 1)`). -/
def addM1 : Date → Date := fun d => addMonths d 1

theorem updatePortfolioValue_history (mkt : Market) (s : SimState) :
    (updatePortfolioValue mkt s).portfolio_history =
      s.portfolio_history ++ [⟨s.current_date, s.time_of_day, totalValue mkt s⟩] := rfl

theorem stepMonthOpen_current_date (mkt : Market) (s : SimState) :
    (stepMonthOpen mkt s).current_date = addM1 s.current_date := rfl

theorem stepMonthOpen_time_of_day (mkt : Market) (s : SimState) :
    (stepMonthOpen mkt s).time_of_day = .openTod := rfl

theorem stepMonthOpen_history (mkt : Market) (s : SimState) :
    (stepMonthOpen mkt s).portfolio_history.map (fun sn => (sn.date, sn.time)) =
      s.portfolio_history.map (fun sn => (sn.date, sn.time)) ++
        [(addM1 s.current_date, TimeOfDay.openTod)] := by
  rw [show (stepMonthOpen mkt s).portfolio_history = s.portfolio_history ++
    [⟨addM1 s.current_date, .openTod,
      totalValue mkt { s with current_date := addM1 s.current_date, time_of_day := .openTod }⟩]
    from rfl, List.map_append]
  rfl

theorem stepMonth_iter_date (mkt : Market) :
    ∀ (n : ℕ) (s : SimState),
      ((stepMonthOpen mkt)^[n] s).current_date = addM1^[n] s.current_date := by
  intro n
  induction n with
  | zero => intro s; rfl
  | succ m ih =>
    intro s
    rw [Function.iterate_succ_apply, Function.iterate_succ_apply, ih (stepMonthOpen mkt s),
      stepMonthOpen_current_date]

theorem stepMonth_iter_tod (mkt : Market) :
    ∀ (n : ℕ) (s : SimState), 0 < n →
      ((stepMonthOpen mkt)^[n] s).time_of_day = .openTod := by
  intro n
  induction n with
  | zero => intro s h; exact absurd h (lt_irrefl 0)
  | succ m ih =>
    intro s _
    cases Nat.eq_zero_or_pos m with
    | inl h0 =>
      subst h0
      rw [Function.iterate_succ_apply, Function.iterate_zero_apply, stepMonthOpen_time_of_day]
    | inr hpos =>
      rw [Function.iterate_succ_apply]
      exact ih (stepMonthOpen mkt s) hpos

theorem stepMonth_iter_hist (mkt : Market) :
    ∀ (n : ℕ) (s : SimState),
      ((stepMonthOpen mkt)^[n] s).portfolio_history.map (fun sn => (sn.date, sn.time)) =
        s.portfolio_history.map (fun sn => (sn.date, sn.time)) ++
          (List.range n).map (fun k => (addM1^[k + 1] s.current_date, TimeOfDay.openTod)) := by
  intro n
  induction n with
  | zero => intro s; simp
  | succ m ih =>
    intro s
    rw [Function.iterate_succ_apply, ih (stepMonthOpen mkt s), stepMonthOpen_history,
      stepMonthOpen_current_date, List.append_assoc, List.singleton_append,
      List.range_succ_eq_map, List.map_cons, List.map_map]
    congr 1

theorem jumpForward_months (mkt : Market) (n : ℕ) (s : SimState) (hn : 0 < n) :
    jumpForward mkt 0 n 0 s = (stepMonthOpen mkt)^[n] s := by
  unfold jumpForward
  simp only [Nat.mul_zero, Nat.add_zero, Function.iterate_zero_apply]
  rw [if_neg (fun hand => absurd hand.1 (Nat.pos_iff_ne_zero.mp hn))]

def c7mkt : Market := fun _ => none

def c7s : SimState :=
  ⟨⟨2000, 1, 3⟩, .openTod, 10000, [], [], [⟨⟨2000, 1, 3⟩, .openTod, 10000⟩]⟩

/-- Claim C7 (amended): advancing the clock by months (or years, which are
twelve month units) steps one calendar month at a time with the day clamped to
the target month's length, forces time-of-day to open, and appends exactly one
snapshot per unit; advancing by 3 months from 2000-01-03 appends exactly 3
monthly snapshots (2000-02-03, 2000-03-03, 2000-04-03), the third being the
final state — no separate fourth snapshot is appended. -/
theorem claim_C7 (mkt : Market) (s : SimState) (n : ℕ) (hn : 0 < n) :
    ((jumpForward mkt 0 n 0 s).current_date = addM1^[n] s.current_date ∧
      (jumpForward mkt 0 n 0 s).time_of_day = .openTod ∧
      (jumpForward mkt 0 n 0 s).portfolio_history.map (fun sn => (sn.date, sn.time)) =
        s.portfolio_history.map (fun sn => (sn.date, sn.time)) ++
          (List.range n).map (fun k => (addM1^[k + 1] s.current_date, TimeOfDay.openTod))) ∧
    (∀ y, jumpForward mkt 0 0 y s = jumpForward mkt 0 (12 * y) 0 s) ∧
    (jumpForward c7mkt 0 3 0 c7s).portfolio_history.map (fun sn => (sn.date, sn.time)) =
      c7s.portfolio_history.map (fun sn => (sn.date, sn.time)) ++
        [(⟨2000, 2, 3⟩, .openTod), (⟨2000, 3, 3⟩, .openTod), (⟨2000, 4, 3⟩, .openTod)] := by
  refine ⟨⟨?_, ?_, ?_⟩, ?_, ?_⟩
  · rw [jumpForward_months mkt n s hn, stepMonth_iter_date]
  · rw [jumpForward_months mkt n s hn]
    exact stepMonth_iter_tod mkt n s hn
  · rw [jumpForward_months mkt n s hn, stepMonth_iter_hist]
  · intro y
    unfold jumpForward
    simp only [Nat.zero_add, Nat.add_zero, Nat.mul_zero]
  · rw [jumpForward_months c7mkt 3 c7s (by norm_num), stepMonth_iter_hist]
    decide

/-- Counterexample to C7 as stated: advancing 3 months appends exactly 3
snapshots, not 3 intermediate ones plus a separate final one (4). -/
theorem claim_C7_counterexample :
    (jumpForward c7mkt 0 3 0 c7s).portfolio_history.length =
      c7s.portfolio_history.length + 3 ∧
    ¬ (jumpForward c7mkt 0 3 0 c7s).portfolio_history.length =
        c7s.portfolio_history.length + 4 := by
  constructor
  · decide
  · decide

/-- Witness for C7: the 3-month scenario from 2000-01-03. -/
theorem claim_C7_witness :
    0 < 3 ∧
    (jumpForward c7mkt 0 3 0 c7s).portfolio_history.map (fun sn => (sn.date, sn.time)) =
      c7s.portfolio_history.map (fun sn => (sn.date, sn.time)) ++
        [(⟨2000, 2, 3⟩, .openTod), (⟨2000, 3, 3⟩, .openTod), (⟨2000, 4, 3⟩, .openTod)] :=
  ⟨by norm_num, (claim_C7 c7mkt c7s 3 (by norm_num)).2.2⟩

/-! ## History aggregation machinery (C8) -/

/-- Invariant of the keyed latest-date reduction: keys are unique, every kept
entry is a processed entry that is latest-dated within its key class, and
every processed entry's key is represented. -/
def KeyInv (key : HistEntry → ℕ × ℕ) (processed : List HistEntry)
    (acc : List ((ℕ × ℕ) × HistEntry)) : Prop :=
  (acc.map Prod.fst).Nodup ∧
  (∀ p ∈ acc, key p.2 = p.1 ∧ p.2 ∈ processed ∧
    ∀ e ∈ processed, key e = p.1 → toOrdinal e.date ≤ toOrdinal p.2.date) ∧
  (∀ e ∈ processed, ∃ p ∈ acc, p.1 = key e)

theorem pairs_eq_of_nodup_fst :
    ∀ {l : List ((ℕ × ℕ) × HistEntry)}, (l.map Prod.fst).Nodup →
      ∀ {p q : (ℕ × ℕ) × HistEntry}, p ∈ l → q ∈ l → p.1 = q.1 → p = q := by
  intro l
  induction l with
  | nil => intro _ p q hp; exact absurd hp (List.not_mem_nil p)
  | cons a tl ih =>
    intro hnd p q hp hq hfst
    rw [List.map_cons, List.nodup_cons] at hnd
    rcases List.mem_cons.mp hp with hpa | hp2
    · rcases List.mem_cons.mp hq with hqa | hq2
      · rw [hpa, hqa]
      · subst hpa
        exact absurd (show p.1 ∈ tl.map Prod.fst by
          rw [hfst]; exact List.mem_map_of_mem Prod.fst hq2) hnd.1
    · rcases List.mem_cons.mp hq with hqa | hq2
      · subst hqa
        exact absurd (show q.1 ∈ tl.map Prod.fst by
          rw [← hfst]; exact List.mem_map_of_mem Prod.fst hp2) hnd.1
      · exact ih hnd.2 hp2 hq2 hfst

theorem keyInv_nil (key : HistEntry → ℕ × ℕ) : KeyInv key [] [] := by
  refine ⟨List.nodup_nil, ?_, ?_⟩
  · intro p hp; exact absurd hp (List.not_mem_nil p)
  · intro e he; exact absurd he (List.not_mem_nil e)

theorem keyInv_updKey (key : HistEntry → ℕ × ℕ) {processed : List HistEntry}
    {acc : List ((ℕ × ℕ) × HistEntry)} (e : HistEntry) (h : KeyInv key processed acc) :
    KeyInv key (processed ++ [e]) (updKey key acc e) := by
  obtain ⟨hnd, hmax, hcomp⟩ := h
  unfold updKey
  cases hfind : acc.find? (fun p => decide (p.1 = key e)) with
  | some ex =>
    have hex_mem : ex ∈ acc := List.mem_of_find?_eq_some hfind
    have hex_key : ex.1 = key e := by simpa using List.find?_some hfind
    simp only []
    split
    next hlt =>
      have hmapfst : (acc.map (fun p => if p.1 = key e then (key e, e) else p)).map Prod.fst =
          acc.map Prod.fst := by
        rw [List.map_map]
        apply List.map_congr_left
        intro p _
        by_cases hpk : p.1 = key e
        · simp [hpk]
        · simp [hpk]
      refine ⟨by rw [hmapfst]; exact hnd, ?_, ?_⟩
      · intro p hp
        obtain ⟨q, hq, rfl⟩ := List.mem_map.mp hp
        by_cases hqk : q.1 = key e
        · simp only [if_pos hqk]
          refine ⟨by simp, List.mem_append.mpr (Or.inr (List.mem_singleton_self e)), ?_⟩
          intro x hx hkx
          rcases List.mem_append.mp hx with hx | hx
          · have hxe := (hmax ex hex_mem).2.2 x hx (by rw [hkx, hex_key])
            exact le_trans hxe (le_of_lt hlt)
          · rw [List.mem_singleton.mp hx]
        · simp only [if_neg hqk]
          obtain ⟨hk, hmem, hm⟩ := hmax q hq
          refine ⟨hk, List.mem_append.mpr (Or.inl hmem), ?_⟩
          intro x hx hkx
          rcases List.mem_append.mp hx with hx | hx
          · exact hm x hx hkx
          · rw [List.mem_singleton.mp hx] at hkx
            exact absurd hkx.symm hqk
      · intro x hx
        rcases List.mem_append.mp hx with hx | hx
        · obtain ⟨p, hp, hpk⟩ := hcomp x hx
          refine ⟨if p.1 = key e then (key e, e) else p,
            List.mem_map_of_mem (fun p => if p.1 = key e then (key e, e) else p) hp, ?_⟩
          by_cases hpe : p.1 = key e
          · rw [if_pos hpe]
            rw [← hpk, hpe]
          · rw [if_neg hpe]
            exact hpk
        · rw [List.mem_singleton.mp hx]
          exact ⟨(key e, e), List.mem_map.mpr ⟨ex, hex_mem, if_pos hex_key⟩, rfl⟩
    next hnlt =>
      refine ⟨hnd, ?_, ?_⟩
      · intro p hp
        obtain ⟨hk, hmem, hm⟩ := hmax p hp
        refine ⟨hk, List.mem_append.mpr (Or.inl hmem), ?_⟩
        intro x hx hkx
        rcases List.mem_append.mp hx with hx | hx
        · exact hm x hx hkx
        · rw [List.mem_singleton.mp hx] at hkx ⊢
          have hpe : p = ex := pairs_eq_of_nodup_fst hnd hp hex_mem (by rw [← hkx, hex_key])
          rw [hpe]
          exact not_lt.mp hnlt
      · intro x hx
        rcases List.mem_append.mp hx with hx | hx
        · exact hcomp x hx
        · rw [List.mem_singleton.mp hx]
          exact ⟨ex, hex_mem, hex_key⟩
  | none =>
    have hnone : ∀ p ∈ acc, ¬ p.1 = key e := by
      intro p hp
      have := List.find?_eq_none.mp hfind p hp
      simpa using this
    simp only []
    refine ⟨?_, ?_, ?_⟩
    · rw [List.map_append]
      refine List.Nodup.append hnd (List.nodup_singleton (key e)) ?_
      intro a ha hb
      obtain ⟨p, hp, rfl⟩ := List.mem_map.mp ha
      rw [List.map_singleton, List.mem_singleton] at hb
      exact hnone p hp hb
    · intro p hp
      rcases List.mem_append.mp hp with hp | hp
      · obtain ⟨hk, hmem, hm⟩ := hmax p hp
        refine ⟨hk, List.mem_append.mpr (Or.inl hmem), ?_⟩
        intro x hx hkx
        rcases List.mem_append.mp hx with hx | hx
        · exact hm x hx hkx
        · rw [List.mem_singleton.mp hx] at hkx
          exact absurd hkx.symm (hnone p hp)
      · rw [List.mem_singleton.mp hp]
        refine ⟨rfl, List.mem_append.mpr (Or.inr (List.mem_singleton_self e)), ?_⟩
        intro x hx hkx
        rcases List.mem_append.mp hx with hx | hx
        · obtain ⟨q, hq, hqk⟩ := hcomp x hx
          exact absurd (by rw [hqk, hkx]) (hnone q hq)
        · rw [List.mem_singleton.mp hx]
    · intro x hx
      rcases List.mem_append.mp hx with hx | hx
      · obtain ⟨p, hp, hpk⟩ := hcomp x hx
        exact ⟨p, List.mem_append.mpr (Or.inl hp), hpk⟩
      · rw [List.mem_singleton.mp hx]
        exact ⟨(key e, e), List.mem_append.mpr (Or.inr (List.mem_singleton_self _)), rfl⟩

theorem keyInv_foldl (key : HistEntry → ℕ × ℕ) :
    ∀ (l processed : List HistEntry) (acc : List ((ℕ × ℕ) × HistEntry)),
      KeyInv key processed acc → KeyInv key (processed ++ l) (l.foldl (updKey key) acc) := by
  intro l
  induction l with
  | nil => intro processed acc h; simpa using h
  | cons e tl ih =>
    intro processed acc h
    rw [List.foldl_cons]
    have := ih (processed ++ [e]) (updKey key acc e) (keyInv_updKey key e h)
    rw [List.append_assoc, List.singleton_append] at this
    exact this

theorem keyInv_reduce (key : HistEntry → ℕ × ℕ) (l : List HistEntry) :
    KeyInv key l (reduceByKey key l) := by
  have := keyInv_foldl key l [] [] (keyInv_nil key)
  rw [List.nil_append] at this
  exact this

theorem insertByDate_perm (e : HistEntry) :
    ∀ l : List HistEntry, (insertByDate e l).Perm (e :: l) := by
  intro l
  induction l with
  | nil => exact List.Perm.refl [e]
  | cons x xs ih =>
    unfold insertByDate
    split
    · exact List.Perm.trans (List.Perm.cons x ih) (List.Perm.swap e x xs)
    · exact List.Perm.refl _

theorem sortByDate_perm (l : List HistEntry) : (sortByDate l).Perm l := by
  suffices h : ∀ (l acc : List HistEntry),
      (l.foldl (fun a e => insertByDate e a) acc).Perm (acc ++ l) by
    simpa using h l []
  intro l
  induction l with
  | nil => intro acc; simp
  | cons e tl ih =>
    intro acc
    rw [List.foldl_cons]
    refine List.Perm.trans (ih (insertByDate e acc)) ?_
    refine List.Perm.trans (List.Perm.append_right tl (insertByDate_perm e acc)) ?_
    rw [List.cons_append]
    exact (List.perm_middle).symm

theorem mem_sortByDate {x : HistEntry} {l : List HistEntry} : x ∈ sortByDate l ↔ x ∈ l :=
  (sortByDate_perm l).mem_iff

theorem sortedMonths_latest (h : List HistEntry) :
    ∀ x ∈ sortedMonths h, x ∈ h ∧
      ∀ y ∈ h, monthKey y.date = monthKey x.date → toOrdinal y.date ≤ toOrdinal x.date := by
  intro x hx
  rw [sortedMonths, mem_sortByDate] at hx
  obtain ⟨p, hp, rfl⟩ := List.mem_map.mp hx
  obtain ⟨_, hmax, _⟩ := keyInv_reduce (fun e => monthKey e.date) h
  obtain ⟨hk, hmem, hm⟩ := hmax p hp
  exact ⟨hmem, fun y hy hkey => hm y hy (by rw [← hk]; exact hkey)⟩

theorem bucketAgg_latest (w : ℕ) (ms : List HistEntry) :
    ∀ x ∈ bucketAgg w ms, x ∈ ms ∧
      ∀ y ∈ ms, periodKey w y = periodKey w x → toOrdinal y.date ≤ toOrdinal x.date := by
  intro x hx
  rw [bucketAgg, mem_sortByDate] at hx
  obtain ⟨p, hp, rfl⟩ := List.mem_map.mp hx
  obtain ⟨_, hmax, _⟩ := keyInv_reduce (periodKey w) ms
  obtain ⟨hk, hmem, hm⟩ := hmax p hp
  exact ⟨hmem, fun y hy hkey => hm y hy (by rw [← hk]; exact hkey)⟩

theorem aggregateHistory_eq_of_cons (h : List HistEntry) (f : HistEntry)
    (rest : List HistEntry) (hms : sortedMonths h = f :: rest) (hne : h ≠ []) :
    aggregateHistory h =
      (if monthsDiffOf (f :: rest) ≤ 24 then f :: rest
       else if monthsDiffOf (f :: rest) ≤ 120 then bucketAgg 3 (f :: rest)
       else bucketAgg 6 (f :: rest)) := by
  cases h with
  | nil => exact absurd rfl hne
  | cons a t =>
    unfold aggregateHistory
    rw [hms]

/-- Claim C8: the aggregator chooses its bucket width from the month span of
the monthly-reduced sequence — a span of exactly 24 months keeps monthly
points, 25 months and 120 months bucket quarterly, 121 months buckets
semi-annually — and within each bucket (and within each month in step 1) the
latest-dated point is kept. -/
theorem claim_C8 (h : List HistEntry) :
    (monthsDiffOf (sortedMonths h) = 24 → aggregateHistory h = sortedMonths h) ∧
    (monthsDiffOf (sortedMonths h) = 25 → aggregateHistory h = bucketAgg 3 (sortedMonths h)) ∧
    (monthsDiffOf (sortedMonths h) = 120 → aggregateHistory h = bucketAgg 3 (sortedMonths h)) ∧
    (monthsDiffOf (sortedMonths h) = 121 → aggregateHistory h = bucketAgg 6 (sortedMonths h)) ∧
    (∀ w, ∀ x ∈ bucketAgg w (sortedMonths h), x ∈ sortedMonths h ∧
      ∀ y ∈ sortedMonths h, periodKey w y = periodKey w x →
        toOrdinal y.date ≤ toOrdinal x.date) ∧
    (∀ x ∈ sortedMonths h, x ∈ h ∧
      ∀ y ∈ h, monthKey y.date = monthKey x.date → toOrdinal y.date ≤ toOrdinal x.date) := by
  refine ⟨?_, ?_, ?_, ?_, fun w => bucketAgg_latest w (sortedMonths h), sortedMonths_latest h⟩
  all_goals
    intro hmd
    rcases hms : sortedMonths h with _ | ⟨f, rest⟩
    · rw [hms] at hmd
      exact absurd hmd (by decide)
    · have hne : h ≠ [] := by
        intro h0
        rw [h0, show sortedMonths [] = [] from rfl] at hms
        exact List.noConfusion hms
      rw [hms] at hmd
      rw [aggregateHistory_eq_of_cons h f rest hms hne, hmd]
      norm_num

def c8h24 : List HistEntry := [⟨⟨2000, 1, 5⟩, 10⟩, ⟨⟨2002, 1, 10⟩, 11⟩]

def c8h25 : List HistEntry := [⟨⟨2000, 1, 5⟩, 10⟩, ⟨⟨2002, 2, 10⟩, 11⟩]

def c8h121 : List HistEntry := [⟨⟨2000, 1, 5⟩, 10⟩, ⟨⟨2010, 2, 10⟩, 11⟩]

/-- Witness for C8: concrete histories spanning exactly 24, 25 and 121 months
aggregate monthly, quarterly and semi-annually respectively. -/
theorem claim_C8_witness :
    (monthsDiffOf (sortedMonths c8h24) = 24 ∧ aggregateHistory c8h24 = sortedMonths c8h24) ∧
    (monthsDiffOf (sortedMonths c8h25) = 25 ∧
      aggregateHistory c8h25 = bucketAgg 3 (sortedMonths c8h25)) ∧
    (monthsDiffOf (sortedMonths c8h121) = 121 ∧
      aggregateHistory c8h121 = bucketAgg 6 (sortedMonths c8h121)) :=
  ⟨⟨by decide, (claim_C8 c8h24).1 (by decide)⟩,
   ⟨by decide, (claim_C8 c8h25).2.1 (by decide)⟩,
   ⟨by decide, (claim_C8 c8h121).2.2.2.1 (by decide)⟩⟩

end TimeTravel
